import Mathlib

/-
Verification of the rlibc runtime-support library against its
natural-language specification.

The development shallowly embeds the declarations of the library headers
(fcntl.h, unistd.h, stdio.h, stdlib.h, sys/wait.h): integer constants
become Nat or Int constants, C structs become Lean structures, and the
function-like wrappers defined in the headers (printf over vfprintf, the
wait convenience over waitpid, the single-character I/O conveniences)
become Lean functions parameterized by the underlying extern operation,
since only the wrapper bodies live in the headers.  Components whose
implementation is not part of the header surface (the formatted-output
engine behind vfprintf, and the heap allocator behind malloc/free/realloc)
are modelled from the specification text, as marked on each definition.
-/

set_option autoImplicit false

namespace Rlibc

/-! ## fcntl.h: open-flag bitmask constants -/

def O_RDONLY : Nat := 0b00001

def O_WRONLY : Nat := 0b00010

def O_RDWR : Nat := O_RDONLY ||| O_WRONLY

def O_APPEND : Nat := 0b00100

def O_CREAT : Nat := 0b01000

def O_TRUNC : Nat := 0b10000

/-! ## unistd.h: descriptor numbers and seek origins -/

def STDIN_FILENO : Int := 0

def STDOUT_FILENO : Int := 1

def STDERR_FILENO : Int := 2

def SEEK_CUR : Nat := 0

def SEEK_SET : Nat := 1

def SEEK_END : Nat := 3

/-! ## stdlib.h: exit codes -/

def EXIT_SUCCESS : Int := 0

def EXIT_FAILURE : Int := -1

/-- Conversion applied to the argument of exit, which is declared as
taking an unsigned int: a C int argument is reduced modulo 2^32 into an
unsigned 32-bit value. -/
def exitWord (code : Int) : Nat := (code % (2 ^ 32)).toNat

/-! ## sys/wait.h: exit-status decoding -/

def WUNTRACED : Nat := 0b1

/-- Embedding of the WIFEXITED macro of sys/wait.h:
a status word indicates normal termination when bits 8 to 11 equal 1. -/
def WIFEXITED (wstatus : Nat) : Bool := ((wstatus &&& 0b111100000000) >>> 8) == 1

/-- Embedding of the WEXITSTATUS macro of sys/wait.h:
the exit code is the low byte of the status word. -/
def WEXITSTATUS (wstatus : Nat) : Nat := wstatus &&& 0b11111111

/-! ## stdio.h: the FILE structure and the standard streams -/

/-- Embedding of the FILE struct of stdio.h, which holds only the
underlying raw descriptor. -/
structure FILE where
  fileno : Int
deriving DecidableEq

def stdin_struct : FILE := ⟨STDIN_FILENO⟩

def stdout_struct : FILE := ⟨STDOUT_FILENO⟩

def stderr_struct : FILE := ⟨STDERR_FILENO⟩

/-- Model of the stdin object-like macro, which points at the process-wide
stdin_struct singleton. -/
def stdin : FILE := stdin_struct

/-- Model of the stdout object-like macro. -/
def stdout : FILE := stdout_struct

/-- Model of the stderr object-like macro. -/
def stderr : FILE := stderr_struct

/-! ## stdio.h: variadic wrappers over the general operations

The general operations vfprintf and vfscanf are extern declarations, so
they enter the model as function parameters; a stream operation takes a
world of type sigma and returns its int result together with the
updated world, so that identity of side effects is part of wrapper
equality.  The argument list stays an abstract type since the wrappers
pass it through untouched. -/

section StdioWrappers

variable {sigma alpha : Type}

/-- Embedding of vprintf from stdio.h: delegates to vfprintf on stdout. -/
def vprintf (vfp : FILE → String → alpha → sigma → Int × sigma)
    (format : String) (vlist : alpha) : sigma → Int × sigma :=
  vfp stdout format vlist

/-- Embedding of printf from stdio.h: packs its variadic arguments and
delegates to vprintf. -/
def printf (vfp : FILE → String → alpha → sigma → Int × sigma)
    (format : String) (args : alpha) : sigma → Int × sigma :=
  vprintf vfp format args

/-- Embedding of fprintf from stdio.h: packs its variadic arguments and
delegates to vfprintf on the given stream. -/
def fprintf (vfp : FILE → String → alpha → sigma → Int × sigma)
    (out_stream : FILE) (format : String) (args : alpha) : sigma → Int × sigma :=
  vfp out_stream format args

/-- Embedding of vscanf from stdio.h: delegates to vfscanf on stdin. -/
def vscanf (vfs : FILE → String → alpha → sigma → Int × sigma)
    (format : String) (vlist : alpha) : sigma → Int × sigma :=
  vfs stdin format vlist

/-- Embedding of scanf from stdio.h: packs its variadic arguments and
delegates to vscanf. -/
def scanf (vfs : FILE → String → alpha → sigma → Int × sigma)
    (format : String) (args : alpha) : sigma → Int × sigma :=
  vscanf vfs format args

/-- Embedding of fscanf from stdio.h: packs its variadic arguments and
delegates to vfscanf on the given stream. -/
def fscanf (vfs : FILE → String → alpha → sigma → Int × sigma)
    (in_stream : FILE) (format : String) (args : alpha) : sigma → Int × sigma :=
  vfs in_stream format args

/-- Embedding of the putc function-like macro of stdio.h, defined as
fputc on the same arguments; fputc is extern, so it is a parameter. -/
def putc (fputc : Int → FILE → sigma → Int × sigma)
    (ch : Int) (f : FILE) : sigma → Int × sigma :=
  fputc ch f

/-- Embedding of the putchar function-like macro of stdio.h, defined as
putc on stdout. -/
def putchar (fputc : Int → FILE → sigma → Int × sigma)
    (ch : Int) : sigma → Int × sigma :=
  putc fputc ch stdout

/-- Embedding of the getc function-like macro of stdio.h, defined as
fgetc on the same stream. -/
def getc (fgetc : FILE → sigma → Int × sigma)
    (f : FILE) : sigma → Int × sigma :=
  fgetc f

/-- Embedding of the getchar function-like macro of stdio.h, defined as
getc on stdin. -/
def getchar (fgetc : FILE → sigma → Int × sigma) : sigma → Int × sigma :=
  getc fgetc stdin

end StdioWrappers

/-! ## sys/wait.h: the wait convenience -/

section WaitWrapper

variable {sigma pi : Type}

/-- Embedding of the wait function-like macro of sys/wait.h, defined as
waitpid with pid -1 and options 0; waitpid is extern, so it is a
parameter.  The status slot stays an abstract type since wait passes it
through untouched. -/
def wait (waitpid : Int → pi → Nat → sigma → Int × sigma)
    (wstatus : pi) : sigma → Int × sigma :=
  waitpid (-1) wstatus 0

end WaitWrapper

/-! ## Formatted conversion engine (output direction)

Modelled from the spec: the implementation behind the extern declaration
vfprintf is not part of the header surface, so the engine below follows
section 4.3 of the specification: literal text is copied verbatim; a
percent sign introduces a directive of flags (left-justify, zero-pad,
force-sign, alternate-form), minimum width, precision, length modifier
and conversion kind; each directive consumes one tagged argument except
the literal-percent directive, which consumes none. -/

/-- Modelled from the spec: one tagged element of the ordered argument
sequence consumed by the formatted engines (section 9 of the spec). -/
inductive FmtArg where
  | int (i : Int)
  | str (s : String)
  | chr (c : Char)
  | ptr (a : Nat)

/-- Modelled from the spec: the parsed representation of one conversion
directive (the FormatSpec entity of section 3), kind kept separate. -/
structure FmtSpec where
  leftJustify : Bool := false
  zeroPad : Bool := false
  forceSign : Bool := false
  altForm : Bool := false
  width : Nat := 0
  precision : Option Nat := none

/-- Parses the flag characters of a directive. -/
def parseFlags (sp : FmtSpec) : List Char → FmtSpec × List Char
  | '-' :: rest => parseFlags { sp with leftJustify := true } rest
  | '0' :: rest => parseFlags { sp with zeroPad := true } rest
  | '+' :: rest => parseFlags { sp with forceSign := true } rest
  | '#' :: rest => parseFlags { sp with altForm := true } rest
  | l => (sp, l)

/-- Parses a run of decimal digits into a number, returning the rest. -/
def parseNum (acc : Nat) : List Char → Nat × List Char
  | c :: rest =>
    if c.isDigit then parseNum (acc * 10 + (c.toNat - 48)) rest
    else (acc, c :: rest)
  | [] => (acc, [])

/-- Parses an optional precision field introduced by a dot. -/
def parsePrec (sp : FmtSpec) : List Char → FmtSpec × List Char
  | '.' :: rest =>
    let p := parseNum 0 rest
    ({ sp with precision := some p.1 }, p.2)
  | l => (sp, l)

/-- Skips length-modifier characters, which only affect how many bytes a
C implementation would pull from the raw argument list; the tagged
argument sequence makes them irrelevant here. -/
def skipLengthMod : List Char → List Char
  | 'l' :: rest => skipLengthMod rest
  | 'h' :: rest => skipLengthMod rest
  | l => l

/-- Parses one full directive after the percent sign: flags, width,
precision, length modifier, then the conversion-kind character. -/
def parseSpec (l : List Char) : FmtSpec × Option Char × List Char :=
  let p1 := parseFlags {} l
  let p2 := parseNum 0 p1.2
  let p3 := parsePrec { p1.1 with width := p2.1 } p2.2
  match skipLengthMod p3.2 with
  | [] => (p3.1, none, [])
  | k :: rest => (p3.1, some k, rest)

/-- Pads a rendered fragment on the left with the given character up to
the field width. -/
def padWith (c : Char) (w : Nat) (s : List Char) : List Char :=
  List.replicate (w - s.length) c ++ s

/-- Pads a rendered fragment on the right with spaces up to the field
width, for left-justified directives. -/
def padRight (w : Nat) (s : List Char) : List Char :=
  s ++ List.replicate (w - s.length) ' '

/-- Justifies a sign and a digit string within the field width: spaces
pad on the left by default, zeros pad between sign and digits under the
zero-pad flag, spaces pad on the right under left-justification. -/
def renderNum (sp : FmtSpec) (sign digits : List Char) : List Char :=
  if sp.leftJustify then padRight sp.width (sign ++ digits)
  else if sp.zeroPad then sign ++ padWith '0' (sp.width - sign.length) digits
  else padWith ' ' sp.width (sign ++ digits)

/-- Renders a signed integer in the given base: a leading minus for
negative values, a plus only under the force-sign flag, digits of the
magnitude (zero renders as a single zero digit). -/
def renderSigned (sp : FmtSpec) (base : Nat) (v : Int) : List Char :=
  let sign : List Char := if v < 0 then ['-'] else if sp.forceSign then ['+'] else []
  renderNum sp sign (Nat.toDigits base v.natAbs)

/-- Renders an unsigned conversion in the given base: the argument is
reinterpreted modulo 2^32, never signed. -/
def renderUnsigned (sp : FmtSpec) (base : Nat) (v : Int) : List Char :=
  renderNum sp [] (Nat.toDigits base ((v % (2 ^ 32)).toNat))

/-- Truncates a string argument to the precision when one is given. -/
def truncPrec (sp : FmtSpec) (s : List Char) : List Char :=
  match sp.precision with
  | none => s
  | some p => s.take p

/-- Justifies plain text within the field width. -/
def padText (sp : FmtSpec) (t : List Char) : List Char :=
  if sp.leftJustify then padRight sp.width t else padWith ' ' sp.width t

/-- Renders one directive given its parsed spec, conversion kind and the
remaining argument sequence; returns the rendered text and the arguments
left.  The literal-percent directive consumes no argument; a directive
whose argument tag does not match is undefined behavior upstream and
renders nothing. -/
def renderDirective (sp : FmtSpec) (k : Char) (args : List FmtArg) :
    List Char × List FmtArg :=
  match k, args with
  | '%', _ => (['%'], args)
  | 'd', .int i :: rest => (renderSigned sp 10 i, rest)
  | 'i', .int i :: rest => (renderSigned sp 10 i, rest)
  | 'u', .int i :: rest => (renderUnsigned sp 10 i, rest)
  | 'x', .int i :: rest => (renderUnsigned sp 16 i, rest)
  | 'o', .int i :: rest => (renderUnsigned sp 8 i, rest)
  | 'c', .chr c :: rest => (padText sp [c], rest)
  | 's', .str s :: rest => (padText sp (truncPrec sp s.data), rest)
  | 'p', .ptr a :: rest => ('0' :: 'x' :: Nat.toDigits 16 a, rest)
  | _, _ => ([], args)

/-- Walks the format string left to right, copying literal text and
rendering each directive.  The fuel argument only bounds the recursion
and is set above the format length; every step consumes at least one
character of the format, so the bound is never reached. -/
def formatLoop : Nat → List Char → List FmtArg → List Char × List FmtArg
  | 0, _, args => ([], args)
  | _ + 1, [], args => ([], args)
  | fuel + 1, '%' :: rest, args =>
    match parseSpec rest with
    | (sp, some k, r) =>
      let t := renderDirective sp k args
      let o := formatLoop fuel r t.2
      (t.1 ++ o.1, o.2)
    | (_, none, _) => ([], args)
  | fuel + 1, c :: rest, args =>
    let o := formatLoop fuel rest args
    (c :: o.1, o.2)

/-- Modelled from the spec: format_output, the output direction of the
formatted conversion engine behind vfprintf (section 4.3), restricted to
the text it produces and the arguments it consumes. -/
def format_output (format : String) (args : List FmtArg) :
    String × List FmtArg :=
  let o := formatLoop (format.length + 1) format.data args
  (⟨o.1⟩, o.2)

/-! ## Heap allocator

Modelled from the spec: the implementations behind the extern
declarations malloc, free and realloc of stdlib.h are not part of the
header surface, so the allocator below follows section 4.1 of the
specification: the arena is a partition into contiguous blocks, each
free or in use; allocation is first-fit, splitting off the exact request
from the front of the first large-enough free block (the specification
leaves the internal alignment granularity to the implementation; the
model uses byte granularity); release marks the block free and eagerly
coalesces it with adjacent free neighbors; resize first attempts
in-place extension into a following free neighbor, then falls back to
allocate-copy-release, preserving the lesser of the old and new sizes;
out-of-memory is a failure return that leaves the arena untouched.
Blocks are identified by their offset from the arena start. -/

/-- Modelled from the spec: one MemoryBlock of the arena partition, free
with a byte size or in use holding its bytes. -/
inductive Block where
  | free (sz : Nat)
  | used (data : List Nat)

/-- Size in bytes of a block. -/
def Block.size : Block → Nat
  | .free sz => sz
  | .used d => d.length

/-- Total number of bytes covered by a block list. -/
def totalSize (s : List Block) : Nat := (s.map Block.size).sum

/-- Initial arena: one free block covering the whole backing region. -/
def initHeap (arena : Nat) : List Block := [Block.free arena]

/-- First-fit search: returns the offset of the new allocation and the
updated block list, splitting the exact request off the front of the
first free block that is large enough. -/
def mallocAux (n : Nat) : Nat → List Block → Option (Nat × List Block)
  | _, [] => none
  | base, Block.used d :: rest =>
    (mallocAux n (base + d.length) rest).map fun p => (p.1, Block.used d :: p.2)
  | base, Block.free sz :: rest =>
    if n ≤ sz then
      if n = sz then some (base, Block.used (List.replicate n 0) :: rest)
      else some (base, Block.used (List.replicate n 0) :: Block.free (sz - n) :: rest)
    else (mallocAux n (base + sz) rest).map fun p => (p.1, Block.free sz :: p.2)

/-- Modelled from the spec: malloc; a zero-size request is a failure. -/
def malloc (n : Nat) (s : List Block) : Option (Nat × List Block) :=
  if n = 0 then none else mallocAux n 0 s

/-- Coalesces a block with the head of the following list when both are
free, keeping adjacent free blocks always merged. -/
def joinFree : Block → List Block → List Block
  | Block.free a, Block.free b :: rest => Block.free (a + b) :: rest
  | b, rest => b :: rest

/-- Releases the in-use block at the given offset, eagerly coalescing
the freed block with its free neighbors; releasing an offset that is
not the start of an in-use block is a detected error. -/
def freeAux (a : Nat) : Nat → List Block → Option (List Block)
  | _, [] => none
  | base, Block.used d :: rest =>
    if base = a then some (joinFree (Block.free d.length) rest)
    else (freeAux a (base + d.length) rest).map fun r => Block.used d :: r
  | base, Block.free sz :: rest =>
    if base = a then none
    else (freeAux a (base + sz) rest).map fun r => joinFree (Block.free sz) r

/-- Modelled from the spec: free. -/
def free (a : Nat) (s : List Block) : Option (List Block) := freeAux a 0 s

/-- Client write into a live allocation: replaces the bytes of the
in-use block at the given offset; the byte count must match the
allocation size. -/
def writeAux (a : Nat) (w : List Nat) : Nat → List Block → Option (List Block)
  | _, [] => none
  | base, Block.used d :: rest =>
    if base = a then
      if w.length = d.length then some (Block.used w :: rest) else none
    else (writeAux a w (base + d.length) rest).map fun r => Block.used d :: r
  | base, Block.free sz :: rest =>
    if base = a then none
    else (writeAux a w (base + sz) rest).map fun r => Block.free sz :: r

/-- Client write into a live allocation, from the arena start. -/
def store (a : Nat) (w : List Nat) (s : List Block) : Option (List Block) :=
  writeAux a w 0 s

/-- Bytes currently held by the live allocation at the given offset, or
none when no in-use block starts there. -/
def liveBytesAux (a : Nat) : Nat → List Block → Option (List Nat)
  | _, [] => none
  | base, Block.used d :: rest =>
    if base = a then some d else liveBytesAux a (base + d.length) rest
  | base, Block.free sz :: rest =>
    if base = a then none else liveBytesAux a (base + sz) rest

/-- Bytes currently held by the live allocation at the given offset. -/
def liveBytes (a : Nat) (s : List Block) : Option (List Nat) :=
  liveBytesAux a 0 s

/-- In-place resize: shrinks by splitting off a coalesced free remainder
or grows into an immediately following free block; fails when the growth
does not fit there. -/
def reallocInPlace (a n : Nat) : Nat → List Block → Option (List Block)
  | _, [] => none
  | base, Block.used d :: rest =>
    if base = a then
      if n = d.length then some (Block.used d :: rest)
      else if n < d.length then
        some (Block.used (d.take n) :: joinFree (Block.free (d.length - n)) rest)
      else
        match rest with
        | Block.free sz :: rest2 =>
          if n ≤ d.length + sz then
            if n = d.length + sz then
              some (Block.used (d ++ List.replicate (n - d.length) 0) :: rest2)
            else
              some (Block.used (d ++ List.replicate (n - d.length) 0)
                    :: Block.free (d.length + sz - n) :: rest2)
          else none
        | _ => none
    else (reallocInPlace a n (base + d.length) rest).map fun r => Block.used d :: r
  | base, Block.free sz :: rest =>
    if base = a then none
    else (reallocInPlace a n (base + sz) rest).map fun r => Block.free sz :: r

/-- Fallback resize by allocate-copy-release: allocates a fresh block,
copies the preserved bytes into it, then releases the old block. -/
def reallocMove (a n : Nat) (d : List Nat) (s : List Block) : Option (List Block) :=
  match mallocAux n 0 s with
  | none => none
  | some p =>
    match writeAux p.1 (d.take n ++ List.replicate (n - d.length) 0) 0 p.2 with
    | none => none
    | some s3 => freeAux a 0 s3

/-- Modelled from the spec: realloc; on failure the arena is untouched
by the caller-facing step below. -/
def realloc (a n : Nat) (s : List Block) : Option (List Block) :=
  if n = 0 then none
  else
    match liveBytes a s with
    | none => none
    | some d =>
      match reallocInPlace a n 0 s with
      | some s2 => some s2
      | none => reallocMove a n d s

/-- One operation of an allocator client: allocate, release, resize, or
write bytes into a live allocation. -/
inductive AllocOp where
  | alloc (n : Nat)
  | release (a : Nat)
  | resize (a n : Nat)
  | write (a : Nat) (w : List Nat)

/-- Runs one client operation; a failing operation leaves the arena
untouched, out-of-memory being a normal, non-fatal outcome. -/
def stepOp (op : AllocOp) (s : List Block) : List Block :=
  match op with
  | .alloc n => match malloc n s with | some p => p.2 | none => s
  | .release a => (free a s).getD s
  | .resize a n => (realloc a n s).getD s
  | .write a w => (store a w s).getD s

/-- Runs a sequence of client operations from left to right. -/
def runOps (ops : List AllocOp) (s : List Block) : List Block :=
  ops.foldl (fun t op => stepOp op t) s

/-- Holds when an operation addresses the allocation at the given
offset: its release, its resize, or a write into it. -/
def touches (a : Nat) : AllocOp → Bool
  | .alloc _ => false
  | .release b => b == a
  | .resize b _ => b == a
  | .write b _ => b == a

/-- Holds when no allocation is live. -/
def noLive (s : List Block) : Bool :=
  s.all fun b => match b with | Block.used _ => false | Block.free _ => true

/-- Holds when no two adjacent blocks are both free, the eager
coalescing invariant of the specification. -/
def noAdjFree : List Block → Bool
  | Block.free _ :: Block.free _ :: _ => false
  | _ :: rest => noAdjFree rest
  | [] => true

/-- Holds when every block has a positive size, so distinct blocks have
distinct offsets. -/
def sizesPos (s : List Block) : Prop := ∀ b ∈ s, 0 < b.size

/-- Holds when the list starts with a free block. -/
def headFree : List Block → Bool
  | Block.free _ :: _ => true
  | _ => false

/-- Arena invariant: every block has positive size, adjacent free blocks
are always merged, and the blocks exactly cover the arena. -/
def heapInv (arena : Nat) (s : List Block) : Prop :=
  sizesPos s ∧ noAdjFree s = true ∧ totalSize s = arena

/-! ## Allocator lemmas: basic structure -/

theorem totalSize_nil : totalSize [] = 0 := rfl

theorem totalSize_cons (b : Block) (l : List Block) :
    totalSize (b :: l) = b.size + totalSize l := by
  simp [totalSize]

theorem noAdjFree_cons_used {d : List Nat} {rest : List Block} :
    noAdjFree (Block.used d :: rest) = noAdjFree rest := by
  cases rest with
  | nil => rfl
  | cons b r => cases b <;> rfl

theorem noAdjFree_cons_free {sz : Nat} {rest : List Block} :
    noAdjFree (Block.free sz :: rest) = (!headFree rest && noAdjFree rest) := by
  cases rest with
  | nil => rfl
  | cons b r => cases b <;> rfl

theorem joinFree_used (d : List Nat) (l : List Block) :
    joinFree (Block.used d) l = Block.used d :: l := by
  cases l with
  | nil => rfl
  | cons b r => cases b <;> rfl

theorem joinFree_free_nil (sz : Nat) : joinFree (Block.free sz) [] = [Block.free sz] := rfl

theorem joinFree_free_used (sz : Nat) (d : List Nat) (r : List Block) :
    joinFree (Block.free sz) (Block.used d :: r) = Block.free sz :: Block.used d :: r := rfl

theorem joinFree_free_free (sz t : Nat) (r : List Block) :
    joinFree (Block.free sz) (Block.free t :: r) = Block.free (sz + t) :: r := rfl

theorem totalSize_joinFree (b : Block) (l : List Block) :
    totalSize (joinFree b l) = b.size + totalSize l := by
  cases b with
  | used d => rw [joinFree_used, totalSize_cons]
  | free sz =>
    cases l with
    | nil => rfl
    | cons c r =>
      cases c with
      | used dd => rw [joinFree_free_used, totalSize_cons]
      | free t =>
        simp only [joinFree_free_free, totalSize_cons, Block.size]
        omega

theorem noAdjFree_joinFree_free {sz : Nat} {rest : List Block}
    (h : noAdjFree rest = true) :
    noAdjFree (joinFree (Block.free sz) rest) = true
  ∧ headFree (joinFree (Block.free sz) rest) = true := by
  cases rest with
  | nil => exact ⟨rfl, rfl⟩
  | cons c r =>
    cases c with
    | used dd =>
      refine ⟨?_, rfl⟩
      rw [joinFree_free_used, noAdjFree_cons_free]
      simpa [headFree, noAdjFree_cons_used] using h
    | free t =>
      refine ⟨?_, rfl⟩
      rw [noAdjFree_cons_free] at h
      rw [joinFree_free_free, noAdjFree_cons_free]
      exact h

theorem liveBytesAux_le {a : Nat} {d : List Nat} {l : List Block} :
    ∀ {base : Nat}, liveBytesAux a base l = some d → base ≤ a := by
  induction l with
  | nil => intro base h; simp [liveBytesAux] at h
  | cons b rest ih =>
    intro base h
    cases b with
    | used dd =>
      by_cases hb : base = a
      · omega
      · simp only [liveBytesAux, if_neg hb] at h
        have := ih h
        omega
    | free sz =>
      by_cases hb : base = a
      · simp [liveBytesAux, hb] at h
      · simp only [liveBytesAux, if_neg hb] at h
        have := ih h
        omega

theorem liveBytesAux_joinFree {a base : Nat} {d : List Nat} {b : Block}
    {l : List Block} (h : liveBytesAux a base (b :: l) = some d) :
    liveBytesAux a base (joinFree b l) = some d := by
  cases b with
  | used dd =>
    rw [joinFree_used]
    exact h
  | free sz =>
    cases l with
    | nil => exact h
    | cons c r =>
      cases c with
      | used dd => exact h
      | free t =>
        simp only [liveBytesAux] at h
        by_cases hb : base = a
        · simp [hb] at h
        · simp only [if_neg hb] at h
          by_cases hb2 : base + sz = a
          · simp [hb2] at h
          · simp only [if_neg hb2] at h
            simp only [joinFree_free_free, liveBytesAux, if_neg hb]
            rw [← Nat.add_assoc]
            exact h

theorem sizesPos_cons {b : Block} {l : List Block} :
    sizesPos (b :: l) ↔ 0 < b.size ∧ sizesPos l := by
  constructor
  · intro h
    exact ⟨h b (List.mem_cons_self _ _), fun c hc => h c (List.mem_cons_of_mem _ hc)⟩
  · rintro ⟨h1, h2⟩ c hc
    rcases List.mem_cons.mp hc with rfl | hc
    · exact h1
    · exact h2 c hc

theorem sizesPos_joinFree {b : Block} {l : List Block}
    (hb : 0 < b.size) (hl : sizesPos l) : sizesPos (joinFree b l) := by
  cases b with
  | used d =>
    rw [joinFree_used]
    exact sizesPos_cons.mpr ⟨hb, hl⟩
  | free sz =>
    cases l with
    | nil => exact sizesPos_cons.mpr ⟨hb, fun c hc => by simp at hc⟩
    | cons c r =>
      cases c with
      | used dd =>
        rw [joinFree_free_used]
        exact sizesPos_cons.mpr ⟨hb, hl⟩
      | free t =>
        rw [joinFree_free_free]
        have := sizesPos_cons.mp hl
        refine sizesPos_cons.mpr ⟨?_, this.2⟩
        simp only [Block.size] at hb ⊢
        omega

/-! ## Allocator lemmas: first-fit allocation -/

theorem mallocAux_ge {n : Nat} :
    ∀ {base : Nat} {l : List Block} {p : Nat × List Block},
      mallocAux n base l = some p → base ≤ p.1 := by
  intro base l
  induction l generalizing base with
  | nil => intro p h; simp [mallocAux] at h
  | cons b rest ih =>
    intro p h
    cases b with
    | used dd =>
      simp only [mallocAux] at h
      cases hm : mallocAux n (base + dd.length) rest with
      | none => simp [hm] at h
      | some q =>
        simp only [hm, Option.map_some', Option.some.injEq] at h
        subst h
        have hrec := ih hm
        exact le_trans (Nat.le_add_right base dd.length) hrec
    | free sz =>
      simp only [mallocAux] at h
      by_cases h1 : n ≤ sz
      · rw [if_pos h1] at h
        by_cases h2 : n = sz
        · rw [if_pos h2] at h
          simp only [Option.some.injEq] at h
          subst h
          exact Nat.le_refl _
        · rw [if_neg h2] at h
          simp only [Option.some.injEq] at h
          subst h
          exact Nat.le_refl _
      · rw [if_neg h1] at h
        cases hm : mallocAux n (base + sz) rest with
        | none => simp [hm] at h
        | some q =>
          simp only [hm, Option.map_some', Option.some.injEq] at h
          subst h
          have hrec := ih hm
          exact le_trans (Nat.le_add_right base sz) hrec

theorem mallocAux_frame {n a : Nat} {d : List Nat} :
    ∀ {base : Nat} {l : List Block} {p : Nat × List Block},
      mallocAux n base l = some p → liveBytesAux a base l = some d →
      liveBytesAux a base p.2 = some d := by
  intro base l
  induction l generalizing base with
  | nil => intro p h _; simp [mallocAux] at h
  | cons b rest ih =>
    intro p h hl
    cases b with
    | used dd =>
      simp only [mallocAux] at h
      cases hm : mallocAux n (base + dd.length) rest with
      | none => simp [hm] at h
      | some q =>
        simp only [hm, Option.map_some', Option.some.injEq] at h
        subst h
        show liveBytesAux a base (Block.used dd :: q.2) = some d
        by_cases hb : base = a
        · simp only [liveBytesAux, if_pos hb] at hl ⊢
          exact hl
        · simp only [liveBytesAux, if_neg hb] at hl ⊢
          exact ih hm hl
    | free sz =>
      by_cases hb : base = a
      · simp [liveBytesAux, hb] at hl
      · simp only [liveBytesAux, if_neg hb] at hl
        simp only [mallocAux] at h
        by_cases h1 : n ≤ sz
        · rw [if_pos h1] at h
          by_cases h2 : n = sz
          · rw [if_pos h2] at h
            simp only [Option.some.injEq] at h
            subst h
            simp only [liveBytesAux, List.length_replicate, if_neg hb]
            rw [h2]
            exact hl
          · rw [if_neg h2] at h
            simp only [Option.some.injEq] at h
            subst h
            have hle := liveBytesAux_le hl
            simp only [liveBytesAux, List.length_replicate, if_neg hb]
            have hb2 : ¬ (base + n = a) := by omega
            rw [if_neg hb2]
            have he : base + n + (sz - n) = base + sz := by omega
            rw [he]
            exact hl
        · rw [if_neg h1] at h
          cases hm : mallocAux n (base + sz) rest with
          | none => simp [hm] at h
          | some q =>
            simp only [hm, Option.map_some', Option.some.injEq] at h
            subst h
            show liveBytesAux a base (Block.free sz :: q.2) = some d
            simp only [liveBytesAux, if_neg hb]
            exact ih hm hl

theorem mallocAux_fresh {n : Nat} :
    ∀ {base : Nat} {l : List Block} {p : Nat × List Block},
      sizesPos l → mallocAux n base l = some p → liveBytesAux p.1 base l = none := by
  intro base l
  induction l generalizing base with
  | nil => intro p _ h; simp [mallocAux] at h
  | cons b rest ih =>
    intro p hpos h
    have hposrest : sizesPos rest := (sizesPos_cons.mp hpos).2
    have hbpos : 0 < b.size := (sizesPos_cons.mp hpos).1
    cases b with
    | used dd =>
      have hdd : 0 < dd.length := hbpos
      simp only [mallocAux] at h
      cases hm : mallocAux n (base + dd.length) rest with
      | none => simp [hm] at h
      | some q =>
        simp only [hm, Option.map_some', Option.some.injEq] at h
        subst h
        have hge : base + dd.length ≤ q.1 := mallocAux_ge hm
        have hb : ¬ (base = q.1) := by omega
        simp only [liveBytesAux, if_neg hb]
        exact ih hposrest hm
    | free sz =>
      have hsz : 0 < sz := hbpos
      simp only [mallocAux] at h
      by_cases h1 : n ≤ sz
      · rw [if_pos h1] at h
        by_cases h2 : n = sz
        · rw [if_pos h2] at h
          simp only [Option.some.injEq] at h
          subst h
          simp [liveBytesAux]
        · rw [if_neg h2] at h
          simp only [Option.some.injEq] at h
          subst h
          simp [liveBytesAux]
      · rw [if_neg h1] at h
        cases hm : mallocAux n (base + sz) rest with
        | none => simp [hm] at h
        | some q =>
          simp only [hm, Option.map_some', Option.some.injEq] at h
          subst h
          have hge : base + sz ≤ q.1 := mallocAux_ge hm
          have hb : ¬ (base = q.1) := by omega
          simp only [liveBytesAux, if_neg hb]
          exact ih hposrest hm

theorem mallocAux_total {n : Nat} :
    ∀ {base : Nat} {l : List Block} {p : Nat × List Block},
      mallocAux n base l = some p → totalSize p.2 = totalSize l := by
  intro base l
  induction l generalizing base with
  | nil => intro p h; simp [mallocAux] at h
  | cons b rest ih =>
    intro p h
    cases b with
    | used dd =>
      simp only [mallocAux] at h
      cases hm : mallocAux n (base + dd.length) rest with
      | none => simp [hm] at h
      | some q =>
        simp only [hm, Option.map_some', Option.some.injEq] at h
        subst h
        simp only [totalSize_cons]
        rw [ih hm]
    | free sz =>
      simp only [mallocAux] at h
      by_cases h1 : n ≤ sz
      · rw [if_pos h1] at h
        by_cases h2 : n = sz
        · rw [if_pos h2] at h
          simp only [Option.some.injEq] at h
          subst h
          simp only [totalSize_cons, Block.size, List.length_replicate]
          omega
        · rw [if_neg h2] at h
          simp only [Option.some.injEq] at h
          subst h
          simp only [totalSize_cons, Block.size, List.length_replicate]
          omega
      · rw [if_neg h1] at h
        cases hm : mallocAux n (base + sz) rest with
        | none => simp [hm] at h
        | some q =>
          simp only [hm, Option.map_some', Option.some.injEq] at h
          subst h
          simp only [totalSize_cons]
          rw [ih hm]

theorem mallocAux_pos {n : Nat} (hn : 0 < n) :
    ∀ {base : Nat} {l : List Block} {p : Nat × List Block},
      sizesPos l → mallocAux n base l = some p → sizesPos p.2 := by
  intro base l
  induction l generalizing base with
  | nil => intro p _ h; simp [mallocAux] at h
  | cons b rest ih =>
    intro p hpos h
    have hposrest : sizesPos rest := (sizesPos_cons.mp hpos).2
    have hbpos : 0 < b.size := (sizesPos_cons.mp hpos).1
    cases b with
    | used dd =>
      simp only [mallocAux] at h
      cases hm : mallocAux n (base + dd.length) rest with
      | none => simp [hm] at h
      | some q =>
        simp only [hm, Option.map_some', Option.some.injEq] at h
        subst h
        exact sizesPos_cons.mpr ⟨hbpos, ih hposrest hm⟩
    | free sz =>
      have hsz : 0 < sz := hbpos
      simp only [mallocAux] at h
      by_cases h1 : n ≤ sz
      · rw [if_pos h1] at h
        by_cases h2 : n = sz
        · rw [if_pos h2] at h
          simp only [Option.some.injEq] at h
          subst h
          refine sizesPos_cons.mpr ⟨?_, hposrest⟩
          simpa [Block.size] using hn
        · rw [if_neg h2] at h
          simp only [Option.some.injEq] at h
          subst h
          refine sizesPos_cons.mpr ⟨?_, sizesPos_cons.mpr ⟨?_, hposrest⟩⟩
          · simpa [Block.size] using hn
          · simp only [Block.size]
            omega
      · rw [if_neg h1] at h
        cases hm : mallocAux n (base + sz) rest with
        | none => simp [hm] at h
        | some q =>
          simp only [hm, Option.map_some', Option.some.injEq] at h
          subst h
          exact sizesPos_cons.mpr ⟨hbpos, ih hposrest hm⟩

theorem mallocAux_headFree {n base : Nat} {l : List Block} {p : Nat × List Block}
    (h : mallocAux n base l = some p) (hl : headFree l = false) :
    headFree p.2 = false := by
  cases l with
  | nil => simp [mallocAux] at h
  | cons b rest =>
    cases b with
    | used dd =>
      simp only [mallocAux] at h
      cases hm : mallocAux n (base + dd.length) rest with
      | none => simp [hm] at h
      | some q =>
        simp only [hm, Option.map_some', Option.some.injEq] at h
        subst h
        rfl
    | free sz => simp [headFree] at hl

theorem mallocAux_adj {n : Nat} :
    ∀ {base : Nat} {l : List Block} {p : Nat × List Block},
      noAdjFree l = true → mallocAux n base l = some p → noAdjFree p.2 = true := by
  intro base l
  induction l generalizing base with
  | nil => intro p _ h; simp [mallocAux] at h
  | cons b rest ih =>
    intro p hadj h
    cases b with
    | used dd =>
      rw [noAdjFree_cons_used] at hadj
      simp only [mallocAux] at h
      cases hm : mallocAux n (base + dd.length) rest with
      | none => simp [hm] at h
      | some q =>
        simp only [hm, Option.map_some', Option.some.injEq] at h
        subst h
        rw [noAdjFree_cons_used]
        exact ih hadj hm
    | free sz =>
      rw [noAdjFree_cons_free, Bool.and_eq_true, Bool.not_eq_true'] at hadj
      simp only [mallocAux] at h
      by_cases h1 : n ≤ sz
      · rw [if_pos h1] at h
        by_cases h2 : n = sz
        · rw [if_pos h2] at h
          simp only [Option.some.injEq] at h
          subst h
          rw [noAdjFree_cons_used]
          exact hadj.2
        · rw [if_neg h2] at h
          simp only [Option.some.injEq] at h
          subst h
          rw [noAdjFree_cons_used, noAdjFree_cons_free]
          simp [hadj.1, hadj.2]
      · rw [if_neg h1] at h
        cases hm : mallocAux n (base + sz) rest with
        | none => simp [hm] at h
        | some q =>
          simp only [hm, Option.map_some', Option.some.injEq] at h
          subst h
          rw [noAdjFree_cons_free]
          have hh := mallocAux_headFree hm hadj.1
          simp [hh, ih hadj.2 hm]

/-! ## Allocator lemmas: release -/

theorem freeAux_frame {bf a : Nat} (hne : bf ≠ a) {d : List Nat} :
    ∀ {base : Nat} {l l2 : List Block},
      freeAux bf base l = some l2 → liveBytesAux a base l = some d →
      liveBytesAux a base l2 = some d := by
  intro base l
  induction l generalizing base with
  | nil => intro l2 h _; simp [freeAux] at h
  | cons b rest ih =>
    intro l2 h hl
    cases b with
    | used dd =>
      simp only [freeAux] at h
      by_cases hb : base = bf
      · rw [if_pos hb] at h
        simp only [Option.some.injEq] at h
        subst h
        have hba : ¬ (base = a) := by omega
        simp only [liveBytesAux, if_neg hba] at hl
        apply liveBytesAux_joinFree
        simp only [liveBytesAux, if_neg hba]
        exact hl
      · rw [if_neg hb] at h
        cases hf : freeAux bf (base + dd.length) rest with
        | none => simp [hf] at h
        | some r2 =>
          simp only [hf, Option.map_some', Option.some.injEq] at h
          subst h
          by_cases hba : base = a
          · simp only [liveBytesAux, if_pos hba] at hl ⊢
            exact hl
          · simp only [liveBytesAux, if_neg hba] at hl ⊢
            exact ih hf hl
    | free sz =>
      simp only [freeAux] at h
      by_cases hb : base = bf
      · rw [if_pos hb] at h
        simp at h
      · rw [if_neg hb] at h
        cases hf : freeAux bf (base + sz) rest with
        | none => simp [hf] at h
        | some r2 =>
          simp only [hf, Option.map_some', Option.some.injEq] at h
          subst h
          by_cases hba : base = a
          · simp [liveBytesAux, if_pos hba] at hl
          · simp only [liveBytesAux, if_neg hba] at hl
            apply liveBytesAux_joinFree
            simp only [liveBytesAux, if_neg hba]
            exact ih hf hl

theorem freeAux_total :
    ∀ {bf base : Nat} {l l2 : List Block},
      freeAux bf base l = some l2 → totalSize l2 = totalSize l := by
  intro bf base l
  induction l generalizing base with
  | nil => intro l2 h; simp [freeAux] at h
  | cons b rest ih =>
    intro l2 h
    cases b with
    | used dd =>
      simp only [freeAux] at h
      by_cases hb : base = bf
      · rw [if_pos hb] at h
        simp only [Option.some.injEq] at h
        subst h
        rw [totalSize_joinFree, totalSize_cons]
        rfl
      · rw [if_neg hb] at h
        cases hf : freeAux bf (base + dd.length) rest with
        | none => simp [hf] at h
        | some r2 =>
          simp only [hf, Option.map_some', Option.some.injEq] at h
          subst h
          rw [totalSize_cons, totalSize_cons, ih hf]
    | free sz =>
      simp only [freeAux] at h
      by_cases hb : base = bf
      · rw [if_pos hb] at h
        simp at h
      · rw [if_neg hb] at h
        cases hf : freeAux bf (base + sz) rest with
        | none => simp [hf] at h
        | some r2 =>
          simp only [hf, Option.map_some', Option.some.injEq] at h
          subst h
          rw [totalSize_joinFree, totalSize_cons, ih hf]

theorem freeAux_pos :
    ∀ {bf base : Nat} {l l2 : List Block},
      sizesPos l → freeAux bf base l = some l2 → sizesPos l2 := by
  intro bf base l
  induction l generalizing base with
  | nil => intro l2 _ h; simp [freeAux] at h
  | cons b rest ih =>
    intro l2 hpos h
    have hposrest : sizesPos rest := (sizesPos_cons.mp hpos).2
    have hbpos : 0 < b.size := (sizesPos_cons.mp hpos).1
    cases b with
    | used dd =>
      simp only [freeAux] at h
      by_cases hb : base = bf
      · rw [if_pos hb] at h
        simp only [Option.some.injEq] at h
        subst h
        exact sizesPos_joinFree hbpos hposrest
      · rw [if_neg hb] at h
        cases hf : freeAux bf (base + dd.length) rest with
        | none => simp [hf] at h
        | some r2 =>
          simp only [hf, Option.map_some', Option.some.injEq] at h
          subst h
          exact sizesPos_cons.mpr ⟨hbpos, ih hposrest hf⟩
    | free sz =>
      simp only [freeAux] at h
      by_cases hb : base = bf
      · rw [if_pos hb] at h
        simp at h
      · rw [if_neg hb] at h
        cases hf : freeAux bf (base + sz) rest with
        | none => simp [hf] at h
        | some r2 =>
          simp only [hf, Option.map_some', Option.some.injEq] at h
          subst h
          exact sizesPos_joinFree hbpos (ih hposrest hf)

theorem freeAux_adj :
    ∀ {bf base : Nat} {l l2 : List Block},
      noAdjFree l = true → freeAux bf base l = some l2 → noAdjFree l2 = true := by
  intro bf base l
  induction l generalizing base with
  | nil => intro l2 _ h; simp [freeAux] at h
  | cons b rest ih =>
    intro l2 hadj h
    cases b with
    | used dd =>
      rw [noAdjFree_cons_used] at hadj
      simp only [freeAux] at h
      by_cases hb : base = bf
      · rw [if_pos hb] at h
        simp only [Option.some.injEq] at h
        subst h
        exact (noAdjFree_joinFree_free hadj).1
      · rw [if_neg hb] at h
        cases hf : freeAux bf (base + dd.length) rest with
        | none => simp [hf] at h
        | some r2 =>
          simp only [hf, Option.map_some', Option.some.injEq] at h
          subst h
          rw [noAdjFree_cons_used]
          exact ih hadj hf
    | free sz =>
      rw [noAdjFree_cons_free, Bool.and_eq_true] at hadj
      simp only [freeAux] at h
      by_cases hb : base = bf
      · rw [if_pos hb] at h
        simp at h
      · rw [if_neg hb] at h
        cases hf : freeAux bf (base + sz) rest with
        | none => simp [hf] at h
        | some r2 =>
          simp only [hf, Option.map_some', Option.some.injEq] at h
          subst h
          exact (noAdjFree_joinFree_free (ih hadj.2 hf)).1

/-! ## Allocator lemmas: client writes -/

theorem writeAux_frame {bw a : Nat} (hne : bw ≠ a) {w d : List Nat} :
    ∀ {base : Nat} {l l2 : List Block},
      writeAux bw w base l = some l2 → liveBytesAux a base l = some d →
      liveBytesAux a base l2 = some d := by
  intro base l
  induction l generalizing base with
  | nil => intro l2 h _; simp [writeAux] at h
  | cons b rest ih =>
    intro l2 h hl
    cases b with
    | used dd =>
      simp only [writeAux] at h
      by_cases hb : base = bw
      · rw [if_pos hb] at h
        by_cases hw : w.length = dd.length
        · rw [if_pos hw] at h
          simp only [Option.some.injEq] at h
          subst h
          have hba : ¬ (base = a) := by omega
          simp only [liveBytesAux, if_neg hba] at hl ⊢
          rw [hw]
          exact hl
        · rw [if_neg hw] at h
          simp at h
      · rw [if_neg hb] at h
        cases hf : writeAux bw w (base + dd.length) rest with
        | none => simp [hf] at h
        | some r2 =>
          simp only [hf, Option.map_some', Option.some.injEq] at h
          subst h
          by_cases hba : base = a
          · simp only [liveBytesAux, if_pos hba] at hl ⊢
            exact hl
          · simp only [liveBytesAux, if_neg hba] at hl ⊢
            exact ih hf hl
    | free sz =>
      simp only [writeAux] at h
      by_cases hb : base = bw
      · rw [if_pos hb] at h
        simp at h
      · rw [if_neg hb] at h
        cases hf : writeAux bw w (base + sz) rest with
        | none => simp [hf] at h
        | some r2 =>
          simp only [hf, Option.map_some', Option.some.injEq] at h
          subst h
          by_cases hba : base = a
          · simp [liveBytesAux, if_pos hba] at hl
          · simp only [liveBytesAux, if_neg hba] at hl ⊢
            exact ih hf hl

theorem writeAux_sets {a : Nat} {w : List Nat} :
    ∀ {base : Nat} {l l2 : List Block},
      writeAux a w base l = some l2 → liveBytesAux a base l2 = some w := by
  intro base l
  induction l generalizing base with
  | nil => intro l2 h; simp [writeAux] at h
  | cons b rest ih =>
    intro l2 h
    cases b with
    | used dd =>
      simp only [writeAux] at h
      by_cases hb : base = a
      · rw [if_pos hb] at h
        by_cases hw : w.length = dd.length
        · rw [if_pos hw] at h
          simp only [Option.some.injEq] at h
          subst h
          simp [liveBytesAux, hb]
        · rw [if_neg hw] at h
          simp at h
      · rw [if_neg hb] at h
        cases hf : writeAux a w (base + dd.length) rest with
        | none => simp [hf] at h
        | some r2 =>
          simp only [hf, Option.map_some', Option.some.injEq] at h
          subst h
          simp only [liveBytesAux, if_neg hb]
          exact ih hf
    | free sz =>
      simp only [writeAux] at h
      by_cases hb : base = a
      · rw [if_pos hb] at h
        simp at h
      · rw [if_neg hb] at h
        cases hf : writeAux a w (base + sz) rest with
        | none => simp [hf] at h
        | some r2 =>
          simp only [hf, Option.map_some', Option.some.injEq] at h
          subst h
          simp only [liveBytesAux, if_neg hb]
          exact ih hf

theorem writeAux_isSome {a : Nat} {w d : List Nat} (hlen : w.length = d.length) :
    ∀ {base : Nat} {l : List Block},
      liveBytesAux a base l = some d → (writeAux a w base l).isSome := by
  intro base l
  induction l generalizing base with
  | nil => intro h; simp [liveBytesAux] at h
  | cons b rest ih =>
    intro h
    cases b with
    | used dd =>
      simp only [liveBytesAux] at h
      by_cases hb : base = a
      · rw [if_pos hb] at h
        simp only [Option.some.injEq] at h
        subst h
        simp [writeAux, hb, hlen]
      · rw [if_neg hb] at h
        have := ih h
        simp only [writeAux, if_neg hb]
        cases hf : writeAux a w (base + dd.length) rest with
        | none => rw [hf] at this; simp at this
        | some r2 => simp [hf]
    | free sz =>
      simp only [liveBytesAux] at h
      by_cases hb : base = a
      · rw [if_pos hb] at h
        simp at h
      · rw [if_neg hb] at h
        have := ih h
        simp only [writeAux, if_neg hb]
        cases hf : writeAux a w (base + sz) rest with
        | none => rw [hf] at this; simp at this
        | some r2 => simp [hf]

theorem writeAux_headFree {bw : Nat} {w : List Nat} {base : Nat}
    {l l2 : List Block} (h : writeAux bw w base l = some l2) :
    headFree l2 = headFree l := by
  cases l with
  | nil => simp [writeAux] at h
  | cons b rest =>
    cases b with
    | used dd =>
      simp only [writeAux] at h
      by_cases hb : base = bw
      · rw [if_pos hb] at h
        by_cases hw : w.length = dd.length
        · rw [if_pos hw] at h
          simp only [Option.some.injEq] at h
          subst h
          rfl
        · rw [if_neg hw] at h
          simp at h
      · rw [if_neg hb] at h
        cases hf : writeAux bw w (base + dd.length) rest with
        | none => simp [hf] at h
        | some r2 =>
          simp only [hf, Option.map_some', Option.some.injEq] at h
          subst h
          rfl
    | free sz =>
      simp only [writeAux] at h
      by_cases hb : base = bw
      · rw [if_pos hb] at h
        simp at h
      · rw [if_neg hb] at h
        cases hf : writeAux bw w (base + sz) rest with
        | none => simp [hf] at h
        | some r2 =>
          simp only [hf, Option.map_some', Option.some.injEq] at h
          subst h
          rfl

theorem writeAux_total {bw : Nat} {w : List Nat} :
    ∀ {base : Nat} {l l2 : List Block},
      writeAux bw w base l = some l2 → totalSize l2 = totalSize l := by
  intro base l
  induction l generalizing base with
  | nil => intro l2 h; simp [writeAux] at h
  | cons b rest ih =>
    intro l2 h
    cases b with
    | used dd =>
      simp only [writeAux] at h
      by_cases hb : base = bw
      · rw [if_pos hb] at h
        by_cases hw : w.length = dd.length
        · rw [if_pos hw] at h
          simp only [Option.some.injEq] at h
          subst h
          simp only [totalSize_cons, Block.size, hw]
        · rw [if_neg hw] at h
          simp at h
      · rw [if_neg hb] at h
        cases hf : writeAux bw w (base + dd.length) rest with
        | none => simp [hf] at h
        | some r2 =>
          simp only [hf, Option.map_some', Option.some.injEq] at h
          subst h
          rw [totalSize_cons, totalSize_cons, ih hf]
    | free sz =>
      simp only [writeAux] at h
      by_cases hb : base = bw
      · rw [if_pos hb] at h
        simp at h
      · rw [if_neg hb] at h
        cases hf : writeAux bw w (base + sz) rest with
        | none => simp [hf] at h
        | some r2 =>
          simp only [hf, Option.map_some', Option.some.injEq] at h
          subst h
          rw [totalSize_cons, totalSize_cons, ih hf]

theorem writeAux_pos {bw : Nat} {w : List Nat} :
    ∀ {base : Nat} {l l2 : List Block},
      sizesPos l → writeAux bw w base l = some l2 → sizesPos l2 := by
  intro base l
  induction l generalizing base with
  | nil => intro l2 _ h; simp [writeAux] at h
  | cons b rest ih =>
    intro l2 hpos h
    have hposrest : sizesPos rest := (sizesPos_cons.mp hpos).2
    have hbpos : 0 < b.size := (sizesPos_cons.mp hpos).1
    cases b with
    | used dd =>
      simp only [writeAux] at h
      by_cases hb : base = bw
      · rw [if_pos hb] at h
        by_cases hw : w.length = dd.length
        · rw [if_pos hw] at h
          simp only [Option.some.injEq] at h
          subst h
          refine sizesPos_cons.mpr ⟨?_, hposrest⟩
          simp only [Block.size] at hbpos ⊢
          omega
        · rw [if_neg hw] at h
          simp at h
      · rw [if_neg hb] at h
        cases hf : writeAux bw w (base + dd.length) rest with
        | none => simp [hf] at h
        | some r2 =>
          simp only [hf, Option.map_some', Option.some.injEq] at h
          subst h
          exact sizesPos_cons.mpr ⟨hbpos, ih hposrest hf⟩
    | free sz =>
      simp only [writeAux] at h
      by_cases hb : base = bw
      · rw [if_pos hb] at h
        simp at h
      · rw [if_neg hb] at h
        cases hf : writeAux bw w (base + sz) rest with
        | none => simp [hf] at h
        | some r2 =>
          simp only [hf, Option.map_some', Option.some.injEq] at h
          subst h
          exact sizesPos_cons.mpr ⟨hbpos, ih hposrest hf⟩

theorem writeAux_adj {bw : Nat} {w : List Nat} :
    ∀ {base : Nat} {l l2 : List Block},
      noAdjFree l = true → writeAux bw w base l = some l2 → noAdjFree l2 = true := by
  intro base l
  induction l generalizing base with
  | nil => intro l2 _ h; simp [writeAux] at h
  | cons b rest ih =>
    intro l2 hadj h
    cases b with
    | used dd =>
      rw [noAdjFree_cons_used] at hadj
      simp only [writeAux] at h
      by_cases hb : base = bw
      · rw [if_pos hb] at h
        by_cases hw : w.length = dd.length
        · rw [if_pos hw] at h
          simp only [Option.some.injEq] at h
          subst h
          rw [noAdjFree_cons_used]
          exact hadj
        · rw [if_neg hw] at h
          simp at h
      · rw [if_neg hb] at h
        cases hf : writeAux bw w (base + dd.length) rest with
        | none => simp [hf] at h
        | some r2 =>
          simp only [hf, Option.map_some', Option.some.injEq] at h
          subst h
          rw [noAdjFree_cons_used]
          exact ih hadj hf
    | free sz =>
      rw [noAdjFree_cons_free, Bool.and_eq_true, Bool.not_eq_true'] at hadj
      simp only [writeAux] at h
      by_cases hb : base = bw
      · rw [if_pos hb] at h
        simp at h
      · rw [if_neg hb] at h
        cases hf : writeAux bw w (base + sz) rest with
        | none => simp [hf] at h
        | some r2 =>
          simp only [hf, Option.map_some', Option.some.injEq] at h
          subst h
          rw [noAdjFree_cons_free]
          rw [writeAux_headFree hf, hadj.1]
          simp [ih hadj.2 hf]

/-! ## Allocator lemmas: in-place resize -/

theorem reallocInPlace_headFree {bt n : Nat} :
    ∀ {base : Nat} {l l2 : List Block},
      reallocInPlace bt n base l = some l2 → headFree l2 = headFree l := by
  intro base l
  cases l with
  | nil => intro l2 h; simp [reallocInPlace] at h
  | cons b rest =>
    intro l2 h
    cases b with
    | used dd =>
      simp only [reallocInPlace] at h
      by_cases hb : base = bt
      · rw [if_pos hb] at h
        by_cases hn1 : n = dd.length
        · rw [if_pos hn1] at h
          simp only [Option.some.injEq] at h
          subst h
          rfl
        · rw [if_neg hn1] at h
          by_cases hn2 : n < dd.length
          · rw [if_pos hn2] at h
            simp only [Option.some.injEq] at h
            subst h
            rfl
          · rw [if_neg hn2] at h
            cases rest with
            | nil => simp at h
            | cons c rest2 =>
              cases c with
              | used _ => simp at h
              | free sz =>
                simp only at h
                by_cases hn3 : n ≤ dd.length + sz
                · rw [if_pos hn3] at h
                  by_cases hn4 : n = dd.length + sz
                  · rw [if_pos hn4] at h
                    simp only [Option.some.injEq] at h
                    subst h
                    rfl
                  · rw [if_neg hn4] at h
                    simp only [Option.some.injEq] at h
                    subst h
                    rfl
                · rw [if_neg hn3] at h
                  simp at h
      · rw [if_neg hb] at h
        cases hf : reallocInPlace bt n (base + dd.length) rest with
        | none => simp [hf] at h
        | some r2 =>
          simp only [hf, Option.map_some', Option.some.injEq] at h
          subst h
          rfl
    | free sz =>
      simp only [reallocInPlace] at h
      by_cases hb : base = bt
      · rw [if_pos hb] at h
        simp at h
      · rw [if_neg hb] at h
        cases hf : reallocInPlace bt n (base + sz) rest with
        | none => simp [hf] at h
        | some r2 =>
          simp only [hf, Option.map_some', Option.some.injEq] at h
          subst h
          rfl

theorem reallocInPlace_frame {bt n a : Nat} (hne : bt ≠ a) {d : List Nat} :
    ∀ {base : Nat} {l l2 : List Block},
      reallocInPlace bt n base l = some l2 → liveBytesAux a base l = some d →
      liveBytesAux a base l2 = some d := by
  intro base l
  induction l generalizing base with
  | nil => intro l2 h _; simp [reallocInPlace] at h
  | cons b rest ih =>
    intro l2 h hl
    cases b with
    | used dd =>
      simp only [reallocInPlace] at h
      by_cases hb : base = bt
      · have hba : ¬ (base = a) := by omega
        simp only [liveBytesAux, if_neg hba] at hl
        rw [if_pos hb] at h
        by_cases hn1 : n = dd.length
        · rw [if_pos hn1] at h
          simp only [Option.some.injEq] at h
          subst h
          simp only [liveBytesAux, if_neg hba]
          exact hl
        · rw [if_neg hn1] at h
          by_cases hn2 : n < dd.length
          · rw [if_pos hn2] at h
            simp only [Option.some.injEq] at h
            subst h
            have hle := liveBytesAux_le hl
            simp only [liveBytesAux, if_neg hba, List.length_take]
            have hmin : min n dd.length = n := Nat.min_eq_left (Nat.le_of_lt hn2)
            rw [hmin]
            apply liveBytesAux_joinFree
            have hba2 : ¬ (base + n = a) := by omega
            simp only [liveBytesAux, if_neg hba2]
            have he : base + n + (dd.length - n) = base + dd.length := by omega
            rw [he]
            exact hl
          · rw [if_neg hn2] at h
            cases rest with
            | nil => simp at h
            | cons c rest2 =>
              cases c with
              | used _ => simp at h
              | free sz =>
                simp only at h
                by_cases hba2 : base + dd.length = a
                · simp [liveBytesAux, hba2] at hl
                · simp only [liveBytesAux, if_neg hba2] at hl
                  have hle := liveBytesAux_le hl
                  by_cases hn3 : n ≤ dd.length + sz
                  · rw [if_pos hn3] at h
                    have hlen : (dd ++ List.replicate (n - dd.length) 0).length = n := by
                      simp only [List.length_append, List.length_replicate]
                      omega
                    by_cases hn4 : n = dd.length + sz
                    · rw [if_pos hn4] at h
                      simp only [Option.some.injEq] at h
                      subst h
                      simp only [liveBytesAux, if_neg hba, hlen]
                      have he : base + n = base + dd.length + sz := by omega
                      rw [he]
                      exact hl
                    · rw [if_neg hn4] at h
                      simp only [Option.some.injEq] at h
                      subst h
                      simp only [liveBytesAux, if_neg hba, hlen]
                      have hba3 : ¬ (base + n = a) := by omega
                      rw [if_neg hba3]
                      have he : base + n + (dd.length + sz - n) = base + dd.length + sz := by
                        omega
                      rw [he]
                      exact hl
                  · rw [if_neg hn3] at h
                    simp at h
      · rw [if_neg hb] at h
        cases hf : reallocInPlace bt n (base + dd.length) rest with
        | none => simp [hf] at h
        | some r2 =>
          simp only [hf, Option.map_some', Option.some.injEq] at h
          subst h
          by_cases hba : base = a
          · simp only [liveBytesAux, if_pos hba] at hl ⊢
            exact hl
          · simp only [liveBytesAux, if_neg hba] at hl ⊢
            exact ih hf hl
    | free sz =>
      simp only [reallocInPlace] at h
      by_cases hb : base = bt
      · rw [if_pos hb] at h
        simp at h
      · rw [if_neg hb] at h
        cases hf : reallocInPlace bt n (base + sz) rest with
        | none => simp [hf] at h
        | some r2 =>
          simp only [hf, Option.map_some', Option.some.injEq] at h
          subst h
          by_cases hba : base = a
          · simp [liveBytesAux, if_pos hba] at hl
          · simp only [liveBytesAux, if_neg hba] at hl ⊢
            exact ih hf hl

theorem reallocInPlace_total {bt n : Nat} :
    ∀ {base : Nat} {l l2 : List Block},
      reallocInPlace bt n base l = some l2 → totalSize l2 = totalSize l := by
  intro base l
  induction l generalizing base with
  | nil => intro l2 h; simp [reallocInPlace] at h
  | cons b rest ih =>
    intro l2 h
    cases b with
    | used dd =>
      simp only [reallocInPlace] at h
      by_cases hb : base = bt
      · rw [if_pos hb] at h
        by_cases hn1 : n = dd.length
        · rw [if_pos hn1] at h
          simp only [Option.some.injEq] at h
          subst h
          rfl
        · rw [if_neg hn1] at h
          by_cases hn2 : n < dd.length
          · rw [if_pos hn2] at h
            simp only [Option.some.injEq] at h
            subst h
            rw [totalSize_cons, totalSize_joinFree, totalSize_cons]
            simp only [Block.size, List.length_take]
            omega
          · rw [if_neg hn2] at h
            cases rest with
            | nil => simp at h
            | cons c rest2 =>
              cases c with
              | used _ => simp at h
              | free sz =>
                simp only at h
                by_cases hn3 : n ≤ dd.length + sz
                · rw [if_pos hn3] at h
                  by_cases hn4 : n = dd.length + sz
                  · rw [if_pos hn4] at h
                    simp only [Option.some.injEq] at h
                    subst h
                    simp only [totalSize_cons, Block.size, List.length_append,
                      List.length_replicate]
                    omega
                  · rw [if_neg hn4] at h
                    simp only [Option.some.injEq] at h
                    subst h
                    simp only [totalSize_cons, Block.size, List.length_append,
                      List.length_replicate]
                    omega
                · rw [if_neg hn3] at h
                  simp at h
      · rw [if_neg hb] at h
        cases hf : reallocInPlace bt n (base + dd.length) rest with
        | none => simp [hf] at h
        | some r2 =>
          simp only [hf, Option.map_some', Option.some.injEq] at h
          subst h
          rw [totalSize_cons, totalSize_cons, ih hf]
    | free sz =>
      simp only [reallocInPlace] at h
      by_cases hb : base = bt
      · rw [if_pos hb] at h
        simp at h
      · rw [if_neg hb] at h
        cases hf : reallocInPlace bt n (base + sz) rest with
        | none => simp [hf] at h
        | some r2 =>
          simp only [hf, Option.map_some', Option.some.injEq] at h
          subst h
          rw [totalSize_cons, totalSize_cons, ih hf]

theorem reallocInPlace_pos {bt n : Nat} (hn : 0 < n) :
    ∀ {base : Nat} {l l2 : List Block},
      sizesPos l → reallocInPlace bt n base l = some l2 → sizesPos l2 := by
  intro base l
  induction l generalizing base with
  | nil => intro l2 _ h; simp [reallocInPlace] at h
  | cons b rest ih =>
    intro l2 hpos h
    have hposrest : sizesPos rest := (sizesPos_cons.mp hpos).2
    have hbpos : 0 < b.size := (sizesPos_cons.mp hpos).1
    cases b with
    | used dd =>
      simp only [reallocInPlace] at h
      by_cases hb : base = bt
      · rw [if_pos hb] at h
        by_cases hn1 : n = dd.length
        · rw [if_pos hn1] at h
          simp only [Option.some.injEq] at h
          subst h
          exact hpos
        · rw [if_neg hn1] at h
          by_cases hn2 : n < dd.length
          · rw [if_pos hn2] at h
            simp only [Option.some.injEq] at h
            subst h
            refine sizesPos_cons.mpr ⟨?_, sizesPos_joinFree ?_ hposrest⟩
            · simp only [Block.size, List.length_take]
              omega
            · simp only [Block.size]
              omega
          · rw [if_neg hn2] at h
            cases rest with
            | nil => simp at h
            | cons c rest2 =>
              cases c with
              | used _ => simp at h
              | free sz =>
                have hposrest2 : sizesPos rest2 := (sizesPos_cons.mp hposrest).2
                simp only at h
                by_cases hn3 : n ≤ dd.length + sz
                · rw [if_pos hn3] at h
                  by_cases hn4 : n = dd.length + sz
                  · rw [if_pos hn4] at h
                    simp only [Option.some.injEq] at h
                    subst h
                    refine sizesPos_cons.mpr ⟨?_, hposrest2⟩
                    simp only [Block.size, List.length_append, List.length_replicate]
                    omega
                  · rw [if_neg hn4] at h
                    simp only [Option.some.injEq] at h
                    subst h
                    refine sizesPos_cons.mpr ⟨?_, sizesPos_cons.mpr ⟨?_, hposrest2⟩⟩
                    · simp only [Block.size, List.length_append, List.length_replicate]
                      omega
                    · simp only [Block.size]
                      omega
                · rw [if_neg hn3] at h
                  simp at h
      · rw [if_neg hb] at h
        cases hf : reallocInPlace bt n (base + dd.length) rest with
        | none => simp [hf] at h
        | some r2 =>
          simp only [hf, Option.map_some', Option.some.injEq] at h
          subst h
          exact sizesPos_cons.mpr ⟨hbpos, ih hposrest hf⟩
    | free sz =>
      simp only [reallocInPlace] at h
      by_cases hb : base = bt
      · rw [if_pos hb] at h
        simp at h
      · rw [if_neg hb] at h
        cases hf : reallocInPlace bt n (base + sz) rest with
        | none => simp [hf] at h
        | some r2 =>
          simp only [hf, Option.map_some', Option.some.injEq] at h
          subst h
          exact sizesPos_cons.mpr ⟨hbpos, ih hposrest hf⟩

theorem reallocInPlace_adj {bt n : Nat} :
    ∀ {base : Nat} {l l2 : List Block},
      noAdjFree l = true → reallocInPlace bt n base l = some l2 →
      noAdjFree l2 = true := by
  intro base l
  induction l generalizing base with
  | nil => intro l2 _ h; simp [reallocInPlace] at h
  | cons b rest ih =>
    intro l2 hadj h
    cases b with
    | used dd =>
      rw [noAdjFree_cons_used] at hadj
      simp only [reallocInPlace] at h
      by_cases hb : base = bt
      · rw [if_pos hb] at h
        by_cases hn1 : n = dd.length
        · rw [if_pos hn1] at h
          simp only [Option.some.injEq] at h
          subst h
          rw [noAdjFree_cons_used]
          exact hadj
        · rw [if_neg hn1] at h
          by_cases hn2 : n < dd.length
          · rw [if_pos hn2] at h
            simp only [Option.some.injEq] at h
            subst h
            rw [noAdjFree_cons_used]
            exact (noAdjFree_joinFree_free hadj).1
          · rw [if_neg hn2] at h
            cases rest with
            | nil => simp at h
            | cons c rest2 =>
              cases c with
              | used _ => simp at h
              | free sz =>
                rw [noAdjFree_cons_free, Bool.and_eq_true, Bool.not_eq_true'] at hadj
                simp only at h
                by_cases hn3 : n ≤ dd.length + sz
                · rw [if_pos hn3] at h
                  by_cases hn4 : n = dd.length + sz
                  · rw [if_pos hn4] at h
                    simp only [Option.some.injEq] at h
                    subst h
                    rw [noAdjFree_cons_used]
                    exact hadj.2
                  · rw [if_neg hn4] at h
                    simp only [Option.some.injEq] at h
                    subst h
                    rw [noAdjFree_cons_used, noAdjFree_cons_free]
                    simp [hadj.1, hadj.2]
                · rw [if_neg hn3] at h
                  simp at h
      · rw [if_neg hb] at h
        cases hf : reallocInPlace bt n (base + dd.length) rest with
        | none => simp [hf] at h
        | some r2 =>
          simp only [hf, Option.map_some', Option.some.injEq] at h
          subst h
          rw [noAdjFree_cons_used]
          exact ih hadj hf
    | free sz =>
      rw [noAdjFree_cons_free, Bool.and_eq_true, Bool.not_eq_true'] at hadj
      simp only [reallocInPlace] at h
      by_cases hb : base = bt
      · rw [if_pos hb] at h
        simp at h
      · rw [if_neg hb] at h
        cases hf : reallocInPlace bt n (base + sz) rest with
        | none => simp [hf] at h
        | some r2 =>
          simp only [hf, Option.map_some', Option.some.injEq] at h
          subst h
          rw [noAdjFree_cons_free, reallocInPlace_headFree hf, hadj.1]
          simp [ih hadj.2 hf]

/-! ## Allocator lemmas: full resize and the client-facing step -/

theorem realloc_frame {bt n a : Nat} (hne : bt ≠ a) {d : List Nat}
    {s s2 : List Block} (hpos : sizesPos s)
    (h : realloc bt n s = some s2) (hl : liveBytes a s = some d) :
    liveBytes a s2 = some d := by
  rw [realloc] at h
  by_cases hn : n = 0
  · rw [if_pos hn] at h
    simp at h
  · rw [if_neg hn] at h
    cases hlb : liveBytes bt s with
    | none => rw [hlb] at h; simp at h
    | some dOld =>
      rw [hlb] at h
      cases hip : reallocInPlace bt n 0 s with
      | some s3 =>
        rw [hip] at h
        simp only [Option.some.injEq] at h
        subst h
        exact reallocInPlace_frame hne hip hl
      | none =>
        rw [hip] at h
        simp only at h
        rw [reallocMove] at h
        cases hm : mallocAux n 0 s with
        | none => rw [hm] at h; simp at h
        | some p =>
          rw [hm] at h
          simp only at h
          cases hw : writeAux p.1 (dOld.take n ++ List.replicate (n - dOld.length) 0) 0 p.2 with
          | none => rw [hw] at h; simp at h
          | some s3 =>
            rw [hw] at h
            have hfresh := mallocAux_fresh hpos hm
            have hpa : p.1 ≠ a := by
              intro he
              rw [he] at hfresh
              have hl' : liveBytesAux a 0 s = some d := hl
              rw [hl'] at hfresh
              exact Option.noConfusion hfresh
            have hl2 := mallocAux_frame hm hl
            have hl3 := writeAux_frame hpa hw hl2
            exact freeAux_frame hne h hl3

theorem realloc_total {bt n : Nat} {s s2 : List Block}
    (h : realloc bt n s = some s2) : totalSize s2 = totalSize s := by
  rw [realloc] at h
  by_cases hn : n = 0
  · rw [if_pos hn] at h
    simp at h
  · rw [if_neg hn] at h
    cases hlb : liveBytes bt s with
    | none => rw [hlb] at h; simp at h
    | some dOld =>
      rw [hlb] at h
      cases hip : reallocInPlace bt n 0 s with
      | some s3 =>
        rw [hip] at h
        simp only [Option.some.injEq] at h
        subst h
        exact reallocInPlace_total hip
      | none =>
        rw [hip] at h
        simp only at h
        rw [reallocMove] at h
        cases hm : mallocAux n 0 s with
        | none => rw [hm] at h; simp at h
        | some p =>
          rw [hm] at h
          simp only at h
          cases hw : writeAux p.1 (dOld.take n ++ List.replicate (n - dOld.length) 0) 0 p.2 with
          | none => rw [hw] at h; simp at h
          | some s3 =>
            rw [hw] at h
            rw [freeAux_total h, writeAux_total hw, mallocAux_total hm]

theorem realloc_pos {bt n : Nat} {s s2 : List Block} (hpos : sizesPos s)
    (h : realloc bt n s = some s2) : sizesPos s2 := by
  rw [realloc] at h
  by_cases hn : n = 0
  · rw [if_pos hn] at h
    simp at h
  · rw [if_neg hn] at h
    have hn' : 0 < n := Nat.pos_of_ne_zero hn
    cases hlb : liveBytes bt s with
    | none => rw [hlb] at h; simp at h
    | some dOld =>
      rw [hlb] at h
      cases hip : reallocInPlace bt n 0 s with
      | some s3 =>
        rw [hip] at h
        simp only [Option.some.injEq] at h
        subst h
        exact reallocInPlace_pos hn' hpos hip
      | none =>
        rw [hip] at h
        simp only at h
        rw [reallocMove] at h
        cases hm : mallocAux n 0 s with
        | none => rw [hm] at h; simp at h
        | some p =>
          rw [hm] at h
          simp only at h
          cases hw : writeAux p.1 (dOld.take n ++ List.replicate (n - dOld.length) 0) 0 p.2 with
          | none => rw [hw] at h; simp at h
          | some s3 =>
            rw [hw] at h
            exact freeAux_pos (writeAux_pos (mallocAux_pos hn' hpos hm) hw) h

theorem realloc_adj {bt n : Nat} {s s2 : List Block} (hadj : noAdjFree s = true)
    (h : realloc bt n s = some s2) : noAdjFree s2 = true := by
  rw [realloc] at h
  by_cases hn : n = 0
  · rw [if_pos hn] at h
    simp at h
  · rw [if_neg hn] at h
    cases hlb : liveBytes bt s with
    | none => rw [hlb] at h; simp at h
    | some dOld =>
      rw [hlb] at h
      cases hip : reallocInPlace bt n 0 s with
      | some s3 =>
        rw [hip] at h
        simp only [Option.some.injEq] at h
        subst h
        exact reallocInPlace_adj hadj hip
      | none =>
        rw [hip] at h
        simp only at h
        rw [reallocMove] at h
        cases hm : mallocAux n 0 s with
        | none => rw [hm] at h; simp at h
        | some p =>
          rw [hm] at h
          simp only at h
          cases hw : writeAux p.1 (dOld.take n ++ List.replicate (n - dOld.length) 0) 0 p.2 with
          | none => rw [hw] at h; simp at h
          | some s3 =>
            rw [hw] at h
            exact freeAux_adj (writeAux_adj (mallocAux_adj hadj hm) hw) h

theorem stepOp_inv {arena : Nat} {s : List Block} {op : AllocOp}
    (hinv : heapInv arena s) : heapInv arena (stepOp op s) := by
  obtain ⟨hpos, hadj, htot⟩ := hinv
  cases op with
  | alloc n =>
    simp only [stepOp]
    cases hm : malloc n s with
    | none => exact ⟨hpos, hadj, htot⟩
    | some p =>
      rw [malloc] at hm
      by_cases hn : n = 0
      · rw [if_pos hn] at hm
        simp at hm
      · rw [if_neg hn] at hm
        have hn' : 0 < n := Nat.pos_of_ne_zero hn
        refine ⟨mallocAux_pos hn' hpos hm, mallocAux_adj hadj hm, ?_⟩
        rw [mallocAux_total hm]
        exact htot
  | release b =>
    simp only [stepOp]
    cases hf : free b s with
    | none => exact ⟨hpos, hadj, htot⟩
    | some l2 =>
      simp only [Option.getD_some]
      refine ⟨freeAux_pos hpos hf, freeAux_adj hadj hf, ?_⟩
      rw [freeAux_total hf]
      exact htot
  | resize b n =>
    simp only [stepOp]
    cases hf : realloc b n s with
    | none => exact ⟨hpos, hadj, htot⟩
    | some l2 =>
      simp only [Option.getD_some]
      refine ⟨realloc_pos hpos hf, realloc_adj hadj hf, ?_⟩
      rw [realloc_total hf]
      exact htot
  | write b w =>
    simp only [stepOp]
    cases hf : store b w s with
    | none => exact ⟨hpos, hadj, htot⟩
    | some l2 =>
      simp only [Option.getD_some]
      refine ⟨writeAux_pos hpos hf, writeAux_adj hadj hf, ?_⟩
      rw [writeAux_total hf]
      exact htot

theorem stepOp_frame {arena a : Nat} {d : List Nat} {s : List Block} {op : AllocOp}
    (hinv : heapInv arena s) (ht : touches a op = false)
    (hl : liveBytes a s = some d) :
    liveBytes a (stepOp op s) = some d := by
  obtain ⟨hpos, hadj, htot⟩ := hinv
  cases op with
  | alloc n =>
    simp only [stepOp]
    cases hm : malloc n s with
    | none => exact hl
    | some p =>
      rw [malloc] at hm
      by_cases hn : n = 0
      · rw [if_pos hn] at hm
        simp at hm
      · rw [if_neg hn] at hm
        exact mallocAux_frame hm hl
  | release b =>
    have hne : b ≠ a := by
      simpa [touches, beq_eq_false_iff_ne] using ht
    simp only [stepOp]
    cases hf : free b s with
    | none => exact hl
    | some l2 =>
      simp only [Option.getD_some]
      exact freeAux_frame hne hf hl
  | resize b n =>
    have hne : b ≠ a := by
      simpa [touches, beq_eq_false_iff_ne] using ht
    simp only [stepOp]
    cases hf : realloc b n s with
    | none => exact hl
    | some l2 =>
      simp only [Option.getD_some]
      exact realloc_frame hne hpos hf hl
  | write b w =>
    have hne : b ≠ a := by
      simpa [touches, beq_eq_false_iff_ne] using ht
    simp only [stepOp]
    cases hf : store b w s with
    | none => exact hl
    | some l2 =>
      simp only [Option.getD_some]
      exact writeAux_frame hne hf hl

theorem runOps_cons (op : AllocOp) (ops : List AllocOp) (s : List Block) :
    runOps (op :: ops) s = runOps ops (stepOp op s) := rfl

theorem runOps_inv {arena : Nat} :
    ∀ (ops : List AllocOp) {s : List Block}, heapInv arena s →
      heapInv arena (runOps ops s) := by
  intro ops
  induction ops with
  | nil => intro s hinv; exact hinv
  | cons op rest ih =>
    intro s hinv
    rw [runOps_cons]
    exact ih (stepOp_inv hinv)

theorem runOps_frame {arena a : Nat} {d : List Nat} :
    ∀ {post : List AllocOp} {s : List Block}, heapInv arena s →
      (∀ op ∈ post, touches a op = false) → liveBytes a s = some d →
      liveBytes a (runOps post s) = some d := by
  intro post
  induction post with
  | nil => intro s _ _ hl; exact hl
  | cons op rest ih =>
    intro s hinv ht hl
    rw [runOps_cons]
    refine ih (stepOp_inv hinv) (fun o ho => ht o (List.mem_cons_of_mem _ ho)) ?_
    exact stepOp_frame hinv (ht op (List.mem_cons_self _ _)) hl

theorem store_sets {a : Nat} {w d : List Nat} {s : List Block}
    (hl : liveBytes a s = some d) (hlen : w.length = d.length) :
    liveBytes a (stepOp (AllocOp.write a w) s) = some w := by
  simp only [stepOp]
  cases hw : store a w s with
  | none =>
    have hs := writeAux_isSome hlen hl
    rw [store] at hw
    rw [hw] at hs
    simp at hs
  | some l2 =>
    simp only [Option.getD_some]
    exact writeAux_sets hw

theorem initHeap_inv {arena : Nat} (hA : 0 < arena) :
    heapInv arena (initHeap arena) := by
  refine ⟨?_, ?_, ?_⟩
  · intro b hb
    simp only [initHeap, List.mem_singleton] at hb
    subst hb
    simpa [Block.size] using hA
  · rw [initHeap, noAdjFree_cons_free]
    rfl
  · simp [initHeap, totalSize, Block.size]

theorem noLive_single_free {arena : Nat} {s : List Block} (hA : 0 < arena)
    (hnl : noLive s = true) (hadj : noAdjFree s = true)
    (ht : totalSize s = arena) :
    s = [Block.free arena] := by
  cases s with
  | nil =>
    rw [totalSize_nil] at ht
    omega
  | cons b rest =>
    cases b with
    | used d => simp [noLive] at hnl
    | free sz =>
      cases rest with
      | nil =>
        rw [totalSize_cons, totalSize_nil] at ht
        simp only [Block.size] at ht
        have hsz : sz = arena := by omega
        rw [hsz]
      | cons c r =>
        cases c with
        | used d => simp [noLive] at hnl
        | free t =>
          rw [noAdjFree_cons_free] at hadj
          simp [headFree] at hadj

theorem malloc_full {arena : Nat} (hA : 0 < arena) :
    (malloc arena [Block.free arena]).isSome := by
  have h0 : ¬ (arena = 0) := by omega
  simp [malloc, h0, mallocAux]

/-! ## Helper lemmas on the status bit layout -/

/-- Masking bits 8 to 11 and shifting right by 8 reads the second nibble
above the low byte, in arithmetic form. -/
theorem and_f00_shiftRight_eight (w : Nat) :
    (w &&& 0b111100000000) >>> 8 = (w / 2 ^ 8) % 2 ^ 4 := by
  have h1 : (w &&& 0b111100000000) >>> 8 = (w >>> 8) &&& 0xF := by
    apply Nat.eq_of_testBit_eq
    intro i
    simp only [Nat.testBit_shiftRight, Nat.testBit_and]
    have h : (0b111100000000 : Nat) = 0xF <<< 8 := by rfl
    rw [h, Nat.testBit_shiftLeft]
    simp [Nat.add_comm 8 i]
  rw [h1, Nat.and_pow_two_sub_one_eq_mod _ 4, Nat.shiftRight_eq_div_pow]

/-! ## Claim theorems: constants and wrappers -/

/-- C2: the open-flag bitmask constants occupy exactly the assigned bit
positions: O_RDONLY is bit 0, O_WRONLY is bit 1, O_RDWR is the union of
bits 0 and 1, O_APPEND is bit 2, O_CREAT is bit 3, O_TRUNC is bit 4,
and the five single-bit flags are pairwise disjoint. -/
theorem open_flag_bits :
    O_RDONLY = 2 ^ 0 ∧ O_WRONLY = 2 ^ 1 ∧ O_RDWR = (O_RDONLY ||| O_WRONLY)
  ∧ O_APPEND = 2 ^ 2 ∧ O_CREAT = 2 ^ 3 ∧ O_TRUNC = 2 ^ 4
  ∧ O_RDONLY &&& O_WRONLY = 0 ∧ O_RDONLY &&& O_APPEND = 0
  ∧ O_RDONLY &&& O_CREAT = 0 ∧ O_RDONLY &&& O_TRUNC = 0
  ∧ O_WRONLY &&& O_APPEND = 0 ∧ O_WRONLY &&& O_CREAT = 0
  ∧ O_WRONLY &&& O_TRUNC = 0 ∧ O_APPEND &&& O_CREAT = 0
  ∧ O_APPEND &&& O_TRUNC = 0 ∧ O_CREAT &&& O_TRUNC = 0 := by
  decide

/-- C9: the seek-origin constants are SEEK_CUR = 0, SEEK_SET = 1,
SEEK_END = 3, pairwise distinct, deviating from the conventional C
assignment, and the value 2 is none of them. -/
theorem seek_constants :
    SEEK_CUR = 0 ∧ SEEK_SET = 1 ∧ SEEK_END = 3
  ∧ SEEK_CUR ≠ SEEK_SET ∧ SEEK_CUR ≠ SEEK_END ∧ SEEK_SET ≠ SEEK_END
  ∧ 2 ≠ SEEK_CUR ∧ 2 ≠ SEEK_SET ∧ 2 ≠ SEEK_END := by
  decide

/-- C7: the three standard stream handles wrap raw descriptors 0, 1 and 2
through the FILE singletons, and the three handles are pairwise
distinct; each is a top-level constant of the model, initialized once. -/
theorem std_streams_distinct_fileno :
    stdin.fileno = STDIN_FILENO ∧ stdout.fileno = STDOUT_FILENO
  ∧ stderr.fileno = STDERR_FILENO
  ∧ STDIN_FILENO = 0 ∧ STDOUT_FILENO = 1 ∧ STDERR_FILENO = 2
  ∧ stdin = stdin_struct ∧ stdout = stdout_struct ∧ stderr = stderr_struct
  ∧ stdin ≠ stdout ∧ stdin ≠ stderr ∧ stdout ≠ stderr := by
  decide

/-- C1 counterexample: the claimed layout is refuted by the code.
WIFEXITED is not a function of the low byte: status words 0x000 and
0x100 share the low byte 0 yet decode differently; and WEXITSTATUS does
not read bits 8 to 15: on 0x142 it yields 0x42, not 0x01. -/
theorem wait_status_layout_counterexample :
    ((0x000 : Nat) % 2 ^ 8 = (0x100 : Nat) % 2 ^ 8
      ∧ WIFEXITED 0x000 ≠ WIFEXITED 0x100)
  ∧ WEXITSTATUS 0x142 ≠ ((0x142 : Nat) / 2 ^ 8) % 2 ^ 8 := by
  decide

/-- C1 amended: the status layout is the reverse of the claimed one:
bits 0 to 7 hold the exit code, and bits 8 to 11 hold the
termination-kind discriminator, value 1 meaning normal termination, so
WIFEXITED reads the nibble above the low byte and WEXITSTATUS extracts
the exit code from the low byte. -/
theorem wait_status_layout_amended (w : Nat) :
    (WIFEXITED w = true ↔ (w / 2 ^ 8) % 2 ^ 4 = 1)
  ∧ WEXITSTATUS w = w % 2 ^ 8 := by
  constructor
  · rw [WIFEXITED, and_f00_shiftRight_eight]
    exact beq_iff_eq
  · have h := Nat.and_pow_two_sub_one_eq_mod w 8
    simpa [WEXITSTATUS] using h

/-- C3: the format-output golden cases: a plain decimal directive on 123
produces 123, a zero-padded width-5 decimal directive on 42 produces
00042, a hex directive on 0xBEEF produces beef, and the literal-percent
directive produces one percent character while consuming no argument. -/
theorem format_output_golden_cases :
    (format_output "%d" [FmtArg.int 123]).1 = "123"
  ∧ (format_output "%05d" [FmtArg.int 42]).1 = "00042"
  ∧ (format_output "%x" [FmtArg.int 0xBEEF]).1 = "beef"
  ∧ ∀ args : List FmtArg, format_output "%%" args = ("%", args) :=
  ⟨rfl, rfl, rfl, fun _ => rfl⟩

/-- C4: the allocator round-trip.  First, a client write into a live
allocation of matching size takes effect.  Second, for any operation
sequence from the initial arena, the bytes of a live allocation persist
unchanged through any further operations that do not release, resize or
rewrite that allocation, so every live allocation holds exactly what
was last written to it until it is released.  Third, whenever no
allocation is live, the eagerly coalesced arena can satisfy a single
request for the full arena size. -/
theorem allocator_round_trip (arena : Nat) (hA : 0 < arena) :
    (∀ (s : List Block) (a : Nat) (w d : List Nat),
        liveBytes a s = some d → w.length = d.length →
        liveBytes a (stepOp (AllocOp.write a w) s) = some w)
  ∧ (∀ (ops post : List AllocOp) (a : Nat) (w : List Nat),
        liveBytes a (runOps ops (initHeap arena)) = some w →
        (∀ op ∈ post, touches a op = false) →
        liveBytes a (runOps post (runOps ops (initHeap arena))) = some w)
  ∧ (∀ ops : List AllocOp, noLive (runOps ops (initHeap arena)) = true →
        (malloc arena (runOps ops (initHeap arena))).isSome) := by
  refine ⟨?_, ?_, ?_⟩
  · intro s a w d hl hlen
    exact store_sets hl hlen
  · intro ops post a w hl ht
    exact runOps_frame (runOps_inv ops (initHeap_inv hA)) ht hl
  · intro ops hnl
    obtain ⟨hpos, hadj, htot⟩ := runOps_inv ops (initHeap_inv hA)
    rw [noLive_single_free hA hnl hadj htot]
    exact malloc_full hA

/-- C4 witness: in a 4-byte arena, the bytes 7, 8 written into the first
allocation survive a later allocation and the release of the other
allocation; and after releasing everything the allocator satisfies a
request for the whole arena. -/
theorem allocator_round_trip_witness :
    (0 < 4)
  ∧ liveBytes 0 (runOps [AllocOp.alloc 1, AllocOp.release 2]
      (runOps [AllocOp.alloc 2, AllocOp.write 0 [7, 8]] (initHeap 4))) = some [7, 8]
  ∧ (malloc 4 (runOps [AllocOp.alloc 2, AllocOp.release 0] (initHeap 4))).isSome := by
  refine ⟨by decide, ?_, ?_⟩
  · exact (allocator_round_trip 4 (by decide)).2.1
      [AllocOp.alloc 2, AllocOp.write 0 [7, 8]]
      [AllocOp.alloc 1, AllocOp.release 2] 0 [7, 8] (by decide) (by decide)
  · exact (allocator_round_trip 4 (by decide)).2.2
      [AllocOp.alloc 2, AllocOp.release 0] (by decide)

/-- C10: EXIT_FAILURE is -1 while exit takes an unsigned int, so
exit of EXIT_FAILURE passes the word 2^32 - 1; after the low-byte mask
of WEXITSTATUS the decoded code is 255, and a decoded code can never
exceed 255 (and, being a natural number, is never negative). -/
theorem exit_failure_wraps_to_255 :
    exitWord EXIT_FAILURE = 2 ^ 32 - 1
  ∧ WEXITSTATUS (exitWord EXIT_FAILURE) = 255
  ∧ ∀ w : Nat, WEXITSTATUS w ≤ 255 := by
  refine ⟨by decide, by decide, fun w => ?_⟩
  exact Nat.and_le_right

/-- C5: every variadic formatted-I/O entry point delegates to the
corresponding general operation: printf and vprintf run vfprintf on
stdout, fprintf runs vfprintf on its stream, scanf and vscanf run
vfscanf on stdin, fscanf runs vfscanf on its stream, with identical
result and identical effect on the world. -/
theorem printf_wrappers_delegate {sigma alpha : Type}
    (vfp vfs : FILE → String → alpha → sigma → Int × sigma)
    (f : FILE) (format : String) (args : alpha) (s : sigma) :
    printf vfp format args s = vfp stdout format args s
  ∧ vprintf vfp format args s = vfp stdout format args s
  ∧ fprintf vfp f format args s = vfp f format args s
  ∧ scanf vfs format args s = vfs stdin format args s
  ∧ vscanf vfs format args s = vfs stdin format args s
  ∧ fscanf vfs f format args s = vfs f format args s :=
  ⟨rfl, rfl, rfl, rfl, rfl, rfl⟩

/-- C6: the single-character conveniences are pure delegations:
putc is fputc, putchar is fputc on stdout, getc is fgetc, getchar is
fgetc on stdin, with identical result and effect. -/
theorem char_io_wrappers_delegate {sigma : Type}
    (fputc : Int → FILE → sigma → Int × sigma)
    (fgetc : FILE → sigma → Int × sigma)
    (ch : Int) (f : FILE) (s : sigma) :
    putc fputc ch f s = fputc ch f s
  ∧ putchar fputc ch s = fputc ch stdout s
  ∧ getc fgetc f s = fgetc f s
  ∧ getchar fgetc s = fgetc stdin s :=
  ⟨rfl, rfl, rfl, rfl⟩

/-- C8: the wait convenience requests any child: wait on a status slot
is exactly waitpid with pid -1 and options 0, with identical result and
effect. -/
theorem wait_delegates_to_waitpid {sigma pi : Type}
    (waitpid : Int → pi → Nat → sigma → Int × sigma)
    (wstatus : pi) (s : sigma) :
    wait waitpid wstatus s = waitpid (-1) wstatus 0 s :=
  rfl

end Rlibc
